import Mathlib

/-!
Verification development for the realm-core object-storage and link-graph engine
(sources: `src/realm/array_key.hpp` and `src/realm/table.hpp`).

The development shallowly embeds the parts of the code that the checked claims
talk about:

* `Key` / `IntArray` / `ArrayKey` — the stable-key encoding of a `KeyColumn`
  (`ArrayKey` in `array_key.hpp`, which stores `value + 1` so that a physical
  zero means null).
* `LinkWorld` with `remove_object`, `remove_object_recursive` and `break_link`
  — the link-graph and cascade-removal semantics of `Table`.
* `TableGraph` / `VersionState` with `bump_version` — the version-counter
  propagation of `Table::bump_version` (`table.hpp`).
* the `top_position_for_*` slot constants of the `Table` root record.

Where a definition embeds a function whose body is present in the sources, it
follows that body; where the body lives in a translation unit that is not part
of the sources (for example `table.cpp`, `realm/keys.hpp`, `realm/array.hpp`),
the definition is modelled from the specification and says so in its doc
comment.
-/

namespace Realm

/-- Modelled from the spec: `StableKey` (`realm::Key`, declared in
`realm/keys.hpp`, which is not among the provided sources) is a signed 64-bit
value with a distinguished sentinel meaning "no key" / "null link".  The
default-constructed key is the sentinel; consistently with the stored
encoding of `ArrayKey` (stored = logical + 1, stored 0 = null) the sentinel's
logical value is `-1`. -/
structure Key where
  value : Int
deriving DecidableEq, Repr

/-- Modelled from the spec: the reserved null key (default-constructed
`realm::Key`). -/
def null_key : Key := ⟨-1⟩

/-- Modelled from the spec: the underlying `Array` (`realm/array.hpp`, not
among the provided sources) is a flat sequence of 64-bit integers with
positional get/set, append, insert, erase, truncate and linear first-match
search over an index range. -/
structure IntArray where
  data : List Int
deriving DecidableEq, Repr

namespace IntArray

/-- Number of slots (`Array::size`). -/
def size (a : IntArray) : Nat := a.data.length

/-- Positional read (`Array::get`); callers guarantee the index is in range. -/
def get (a : IntArray) (i : Nat) : Int := a.data.getD i 0

/-- Positional write (`Array::set`). -/
def set (a : IntArray) (i : Nat) (v : Int) : IntArray := ⟨a.data.set i v⟩

/-- Append (`Array::add`). -/
def add (a : IntArray) (v : Int) : IntArray := ⟨a.data ++ [v]⟩

/-- Erase the slot at index `i` (`Array::erase`). -/
def erase_at (a : IntArray) (i : Nat) : IntArray := ⟨a.data.eraseIdx i⟩

/-- Truncate to the first `i` slots (`Array::truncate`). -/
def truncate (a : IntArray) (i : Nat) : IntArray := ⟨a.data.take i⟩

/-- Linear scan helper: first index `≥ b` within the next `fuel` slots whose
value equals `v`. -/
def find_from (d : List Int) (v : Int) : Nat → Nat → Option Nat
  | _, 0 => none
  | b, fuel + 1 => if d.getD b 0 = v then some b else find_from d v (b + 1) fuel

/-- First index in `[b, min e size)` holding `v` (`Array::find_first`). -/
def find_first (a : IntArray) (v : Int) (b e : Nat) : Option Nat :=
  find_from a.data v b (min e a.size - b)

end IntArray

/-- From `realm/array_key.hpp`: `ArrayKey` is an array of keys stored with the
null-safe shift `stored = logical + 1`. -/
structure ArrayKey where
  arr : IntArray
deriving DecidableEq, Repr

namespace ArrayKey

/-- From `realm/array_key.hpp`: `default_value` ignores its nullable argument
and returns the default-constructed (null) key. -/
def default_value (_ : Bool) : Key := null_key

/-- Number of slots. -/
def size (a : ArrayKey) : Nat := a.arr.size

/-- From `realm/array_key.hpp`: `add` appends `value.value + 1`. -/
def add (a : ArrayKey) (k : Key) : ArrayKey := ⟨a.arr.add (k.value + 1)⟩

/-- From `realm/array_key.hpp`: `set` stores `value.value + 1` at `ndx`. -/
def set (a : ArrayKey) (i : Nat) (k : Key) : ArrayKey := ⟨a.arr.set i (k.value + 1)⟩

/-- From `realm/array_key.hpp`: `set_null` stores the physical value `0`. -/
def set_null (a : ArrayKey) (i : Nat) : ArrayKey := ⟨a.arr.set i 0⟩

/-- From `realm/array_key.hpp`: `get` returns `Key(stored - 1)`. -/
def get (a : ArrayKey) (i : Nat) : Key := ⟨a.arr.get i - 1⟩

/-- From `realm/array_key.hpp`: `is_null` checks the stored value against `0`. -/
def is_null (a : ArrayKey) (i : Nat) : Bool := a.arr.get i == 0

/-- From `realm/array_key.hpp`: `find_first` searches for `value.value + 1`. -/
def find_first (a : ArrayKey) (k : Key) (b e : Nat) : Option Nat :=
  a.arr.find_first (k.value + 1) b e

/-- From `realm/array_key.hpp`: `nullify` finds the first slot holding `key`
over the whole array, asserts one was found (`REALM_ASSERT(begin != npos)`) and
erases it.  The assertion failure of the C++ code is modelled as `none`. -/
def nullify (a : ArrayKey) (k : Key) : Option ArrayKey :=
  match a.find_first k 0 a.size with
  | some i => some ⟨a.arr.erase_at i⟩
  | none => none

end ArrayKey

/-- Modelled from the spec: one forward link of the link graph, from object
`src` to object `dst`, classified strong or weak by the `set_link_type`
declaration of its column (spec sections 3 and 4.4; the link-column
implementations are in translation units not among the provided sources). -/
structure Edge where
  src : Nat
  dst : Nat
  strong : Bool
deriving DecidableEq, Repr

/-- Modelled from the spec: the object-and-link state a `Table` owns — the set
of live object keys of the object store together with every forward link
between them (spec sections 3, 4.2 and 4.4).  Backlinks are the reciprocal
reading of `edges` and are not stored separately. -/
structure LinkWorld where
  live : List Nat
  edges : List Edge
deriving DecidableEq, Repr

/-- From `realm/table.hpp`: `Table::is_valid(key)` asks the cluster tree
whether the key refers to a live object. -/
def is_valid (w : LinkWorld) (k : Nat) : Bool := decide (k ∈ w.live)

/-- Modelled from the spec: plain `Table::remove_object` severs/nullifies all
outgoing and incoming links touching the object and then erases it from the
object store; it never cascades (spec sections 4.3, 8 and 9; the body lives in
`table.cpp`, which is not among the provided sources). -/
def remove_object (w : LinkWorld) (k : Nat) : LinkWorld :=
  ⟨w.live.filter (fun x => decide (x ≠ k)),
   w.edges.filter (fun e => decide (e.src ≠ k ∧ e.dst ≠ k))⟩

/-- Modelled from the spec: the targets of the object's outgoing strong links,
the candidates for cascade removal when the object is removed. -/
def strong_targets (w : LinkWorld) (k : Nat) : List Nat :=
  (w.edges.filter (fun e => decide (e.src = k) && e.strong)).map Edge.dst

/-- Modelled from the spec: whether some remaining strong link points at `t`. -/
def strongly_referenced (w : LinkWorld) (t : Nat) : Bool :=
  w.edges.any (fun e => decide (e.dst = t) && e.strong)

/-- Modelled from the spec: the cascade loop of `Table::remove_recursive`
(`table.cpp` is not among the provided sources).  The worklist is the
transient `CascadeState`: each scheduled key is removed with single-object
semantics, and every target that thereby loses its last strong incoming link
is scheduled in turn, without scheduling the same key twice (spec sections
4.3 and 4.4). -/
def remove_recursive : LinkWorld → List Nat → LinkWorld
  | w, [] => w
  | w, k :: rest =>
    if h : is_valid w k = true then
      let ts := strong_targets w k
      let w' := remove_object w k
      let newly :=
        ts.filter (fun t => is_valid w' t && !strongly_referenced w' t && !decide (t ∈ rest))
      remove_recursive w' (rest ++ newly)
    else
      remove_recursive w rest
  termination_by w state => (w.live.length, state.length)
  decreasing_by
  · apply Prod.Lex.left
    have hk : k ∈ w.live := by simpa [is_valid] using h
    simp only [remove_object]
    rw [List.length_filter_lt_length_iff_exists]
    exact ⟨k, hk, by simp⟩
  · apply Prod.Lex.right
    simp

/-- Modelled from the spec: `Table::remove_object_recursive` schedules the
given key in a fresh `CascadeState` and runs the cascade loop (spec
section 4.3). -/
def remove_object_recursive (w : LinkWorld) (k : Nat) : LinkWorld :=
  remove_recursive w [k]

/-- Remove the first edge from `s` to `t` from the edge list. -/
def remove_first_edge : List Edge → Nat → Nat → List Edge
  | [], _, _ => []
  | e :: es, s, t =>
    if e.src = s ∧ e.dst = t then es else e :: remove_first_edge es s t

/-- Modelled from the spec: breaking a single link from `s` to `t` (nullify,
overwrite with a different target, removal from a link list).  The forward
reference and its backlink entry are removed; if the link was strong and the
target thereby lost its last strong incoming link, the target is scheduled in
a `CascadeState` and cascade removal runs (spec section 4.4). -/
def break_link (w : LinkWorld) (s t : Nat) : LinkWorld :=
  match w.edges.find? (fun e => decide (e.src = s ∧ e.dst = t)) with
  | none => w
  | some e =>
    let w' : LinkWorld := ⟨w.live, remove_first_edge w.edges s t⟩
    if e.strong && !strongly_referenced w' t then remove_recursive w' [t] else w'

/-- Modelled from the spec: the tables of one group, with the weak parent
back-reference and, per table, the tables connected to it by an outgoing or
incoming link column (the non-null entries of `m_cols` whose
`bump_link_origin_table_version` forwards the bump; the column bodies are in
translation units not among the provided sources). -/
structure TableGraph (n : Nat) where
  parent : Fin n → Option (Fin n)
  linked : Fin n → List (Fin n)

/-- Modelled from the spec: the allocator's process-wide monotonic version
counter together with each table's `m_version` (spec section 4.5; the
allocator lives in `realm/alloc.hpp`, not among the provided sources). -/
structure VersionState (n : Nat) where
  global_version : Nat
  version : Fin n → Nat

/-- Modelled from the spec: `Allocator::bump_global_version` advances the
process-wide monotonic counter. -/
def bump_global_version (s : VersionState n) : VersionState n :=
  { s with global_version := s.global_version + 1 }

/-- Modelled from the spec: `Allocator::should_propagate_version(m_version)`
reports whether propagation is warranted for the table's current version —
it is warranted exactly when the table has not yet observed the current global
version, and observing it records the global version in `m_version` (this is
what makes `get_version_counter` change after a mutation and what prunes
repeated propagation). -/
def should_propagate_version (s : VersionState n) (t : Fin n) : Bool × VersionState n :=
  if s.version t = s.global_version then (false, s)
  else (true, ⟨s.global_version, Function.update s.version t s.global_version⟩)

mutual

/-- From `realm/table.hpp` (`Table::bump_version`): if `bump_global` is set —
only on initial entry through an operation on the table — the allocator's
global counter is bumped; then, if the allocator reports that propagation is
warranted for this table's current version, the bump propagates to the parent
table and to every table connected through a link column, recursively and with
`bump_global = false`.  `fuel` is an embedding artifact bounding the recursion
depth; any call made by the code uses enough of it. -/
def bump_version (g : TableGraph n) : Nat → Fin n → Bool → VersionState n → VersionState n
  | 0, _, _, s => s
  | fuel + 1, t, bump_global, s0 =>
    let s1 := if bump_global then bump_global_version s0 else s0
    let pr := should_propagate_version s1 t
    if pr.1 then
      bump_columns g fuel (g.linked t)
        (match g.parent t with
         | some p => bump_version g fuel p false pr.2
         | none => pr.2)
    else pr.2
  termination_by fuel _ _ _ => (fuel, 0)

/-- From `realm/table.hpp` (`Table::bump_version`): the loop over `m_cols`
forwarding the bump through each link-connected table. -/
def bump_columns (g : TableGraph n) : Nat → List (Fin n) → VersionState n → VersionState n
  | _, [], s => s
  | fuel, c :: cs, s => bump_columns g fuel cs (bump_version g fuel c false s)
  termination_by fuel cs _ => (fuel, cs.length + 1)

end

/-- From `realm/table.hpp`: `Table::get_version_counter` returns `m_version`. -/
def get_version_counter (s : VersionState n) (t : Fin n) : Nat := s.version t

/-- Modelled from the spec: every mutating `Table` operation ends by calling
`bump_version` with the global flag set (spec sections 2 and 4.5; the bodies
of the mutating operations are in `table.cpp`, not among the provided
sources). -/
def mutating_call (g : TableGraph n) (fuel : Nat) (t : Fin n) (s : VersionState n) :
    VersionState n :=
  bump_version g (fuel + 1) t true s

/-- Modelled from the spec: read-only operations (get, find, aggregate,
bounds, iteration) never call `bump_version` and leave the version state
untouched. -/
def read_only_call (s : VersionState n) : VersionState n := s

/-- From `realm/table.hpp`: slot 0 of a `Table`'s top array holds the `Spec`. -/
def top_position_for_spec : Nat := 0

/-- From `realm/table.hpp`: slot 1 holds the column-data directory. -/
def top_position_for_columns : Nat := 1

/-- From `realm/table.hpp`: slot 2 holds the cluster-tree (object store) root. -/
def top_position_for_cluster_tree : Nat := 2

/-- From `realm/table.hpp`: slot 3 holds the table key. -/
def top_position_for_key : Nat := 3

/-! Concrete instances used by the witness theorems. -/

/-- A three-object chain 0 → 1 → 2 of sole strong links. -/
def chain_world : LinkWorld := ⟨[0, 1, 2], [⟨0, 1, true⟩, ⟨1, 2, true⟩]⟩

/-- A strong cycle 0 ↔ 1 with one third-party strong link 2 → 0. -/
def cycle_world : LinkWorld := ⟨[0, 1, 2], [⟨2, 0, true⟩, ⟨0, 1, true⟩, ⟨1, 0, true⟩]⟩

/-- A two-slot key column holding the keys 4 and 8 (stored 5 and 9). -/
def sample_keys : ArrayKey := ⟨⟨[5, 9]⟩⟩

/-- A key column with a null slot (stored 0) followed by the key 6 (stored 7). -/
def sample_with_null : ArrayKey := ⟨⟨[0, 7]⟩⟩

/-- A key column holding the keys 6, 2, 6 (stored 7, 3, 7). -/
def sample_dup : ArrayKey := ⟨⟨[7, 3, 7]⟩⟩

/-- A one-table graph with no parent and no link columns. -/
def single_graph : TableGraph 1 := ⟨fun _ => none, fun _ => []⟩

/-- The version state in which table 0 and the global counter both read 0. -/
def zero_state : VersionState 1 := ⟨0, fun _ => 0⟩

/-- Table 0 of the one-table graph. -/
def table_zero : Fin 1 := ⟨0, Nat.zero_lt_one⟩

/-! Helper lemmas. -/

/-- Setting a slot and reading it back yields the written value. -/
theorem getD_set_self (l : List Int) (i : Nat) (x : Int) (h : i < l.length) :
    (l.set i x).getD i 0 = x := by
  induction l generalizing i with
  | nil => simp at h
  | cons hd tl ih =>
    cases i with
    | zero => rfl
    | succ i =>
      simp only [List.set_cons_succ, List.getD_cons_succ]
      exact ih i (by simpa using h)

/-- A successful linear scan returns an in-range index holding the sought
value, and no earlier index in the scanned range holds it. -/
theorem find_from_spec (d : List Int) (v : Int) :
    ∀ fuel b i, IntArray.find_from d v b fuel = some i →
      b ≤ i ∧ i < b + fuel ∧ d.getD i 0 = v ∧ ∀ j, b ≤ j → j < i → d.getD j 0 ≠ v := by
  intro fuel
  induction fuel with
  | zero => intro b i h; simp [IntArray.find_from] at h
  | succ fuel ih =>
    intro b i h
    rw [IntArray.find_from] at h
    by_cases hb : d.getD b 0 = v
    · rw [if_pos hb] at h
      obtain rfl : b = i := by simpa using h
      exact ⟨Nat.le_refl b, by omega, hb, fun j h1 h2 => by omega⟩
    · rw [if_neg hb] at h
      obtain ⟨h1, h2, h3, h4⟩ := ih (b + 1) i h
      refine ⟨by omega, by omega, h3, fun j hj1 hj2 => ?_⟩
      rcases Nat.eq_or_lt_of_le hj1 with rfl | hj
      · exact hb
      · exact h4 j hj hj2

/-- A failed linear scan means no index in the scanned range holds the sought
value. -/
theorem find_from_none_spec (d : List Int) (v : Int) :
    ∀ fuel b, IntArray.find_from d v b fuel = none →
      ∀ j, b ≤ j → j < b + fuel → d.getD j 0 ≠ v := by
  intro fuel
  induction fuel with
  | zero => intro b _ j h1 h2; omega
  | succ fuel ih =>
    intro b h j h1 h2
    rw [IntArray.find_from] at h
    by_cases hb : d.getD b 0 = v
    · rw [if_pos hb] at h; exact absurd h (by simp)
    · rw [if_neg hb] at h
      rcases Nat.eq_or_lt_of_le h1 with rfl | hj
      · exact hb
      · exact ih (b + 1) h j hj (by omega)

/-- Reading slot `j` as a key gives `k` exactly when the stored value is the
shifted `k.value + 1`. -/
theorem get_eq_iff (a : ArrayKey) (j : Nat) (k : Key) :
    a.get j = k ↔ a.arr.data.getD j 0 = k.value + 1 := by
  obtain ⟨kv⟩ := k
  simp only [ArrayKey.get, IntArray.get, Key.mk.injEq]
  omega

/-- An edge survives `remove_first_edge` if it does not connect `s` to `t`. -/
theorem mem_remove_first_edge (es : List Edge) (s t : Nat) (e : Edge)
    (he : e ∈ es) (hne : ¬(e.src = s ∧ e.dst = t)) :
    e ∈ remove_first_edge es s t := by
  induction es with
  | nil => simp at he
  | cons e0 es ih =>
    rw [remove_first_edge]
    rcases List.mem_cons.mp he with rfl | hmem
    · rw [if_neg hne]
      exact List.mem_cons_self _ _
    · by_cases h0 : e0.src = s ∧ e0.dst = t
      · rw [if_pos h0]; exact hmem
      · rw [if_neg h0]; exact List.mem_cons_of_mem e0 (ih hmem)

/-! Claim theorems. -/

/-- C9: the Table root record's four slots appear in exactly this order and
identity — slot 0 the schema (Spec), slot 1 the column-data directory, slot 2
the object (cluster) store root, slot 3 the table identifier (key). -/
theorem table_top_slot_layout :
    top_position_for_spec = 0 ∧ top_position_for_columns = 1 ∧
      top_position_for_cluster_tree = 2 ∧ top_position_for_key = 3 := by
  decide

/-- C10: `ArrayKey::default_value` returns the same result — the
default-constructed (null) key — for both values of its nullable argument, so
a newly added key/link slot defaults to null regardless of the declared
nullability. -/
theorem default_value_ignores_nullable :
    ArrayKey.default_value true = ArrayKey.default_value false ∧
      ∀ b : Bool, ArrayKey.default_value b = null_key :=
  ⟨rfl, fun _ => rfl⟩

/-- C3: KeyColumn round-trip — for an in-range index and a key other than the
null sentinel, `set` followed by `get` returns the key and the stored physical
value is the logical value plus one; `set_null` stores physical zero, after
which `is_null` holds and `get` returns the null sentinel. -/
theorem key_column_round_trip (a : ArrayKey) (i : Nat) (v : Key)
    (hi : i < a.size) (hv : v ≠ null_key) :
    (a.set i v).get i = v ∧
      (a.set i v).arr.get i = v.value + 1 ∧
      (a.set_null i).is_null i = true ∧
      (a.set_null i).get i = null_key ∧
      (a.set_null i).arr.get i = 0 := by
  obtain ⟨vv⟩ := v
  have hlen : i < a.arr.data.length := hi
  refine ⟨?_, ?_, ?_, ?_, ?_⟩
  · simp only [ArrayKey.set, ArrayKey.get, IntArray.set, IntArray.get,
      getD_set_self _ _ _ hlen, Key.mk.injEq]
    omega
  · simp only [ArrayKey.set, IntArray.set, IntArray.get, getD_set_self _ _ _ hlen]
  · simp only [ArrayKey.set_null, ArrayKey.is_null, IntArray.set, IntArray.get,
      getD_set_self _ _ _ hlen]
    rfl
  · simp only [ArrayKey.set_null, ArrayKey.get, IntArray.set, IntArray.get,
      getD_set_self _ _ _ hlen, null_key]
    rfl
  · simp only [ArrayKey.set_null, IntArray.set, IntArray.get, getD_set_self _ _ _ hlen]

/-- C3 witness: the round-trip evaluated on a concrete column, index and key. -/
theorem key_column_round_trip_witness :
    ((0 : Nat) < sample_keys.size ∧ (⟨3⟩ : Key) ≠ null_key) ∧
      ((sample_keys.set 0 ⟨3⟩).get 0 = ⟨3⟩ ∧
        (sample_keys.set 0 ⟨3⟩).arr.get 0 = 3 + 1 ∧
        (sample_keys.set_null 0).is_null 0 = true ∧
        (sample_keys.set_null 0).get 0 = null_key ∧
        (sample_keys.set_null 0).arr.get 0 = 0) :=
  ⟨⟨by decide, by decide⟩, key_column_round_trip sample_keys 0 ⟨3⟩ (by decide) (by decide)⟩

/-- C7: a successful `find_first` never lands on a null slot unless the search
key is itself the null sentinel, and searching for the sentinel matches only
null slots. -/
theorem find_first_null_discipline (a : ArrayKey) (k : Key) (b e i : Nat)
    (hf : a.find_first k b e = some i) :
    (k ≠ null_key → a.is_null i = false) ∧ (k = null_key → a.is_null i = true) := by
  have hval := (find_from_spec a.arr.data (k.value + 1) _ b i hf).2.2.1
  constructor
  · intro hk
    have hkv : k.value ≠ -1 := by
      intro h
      exact hk (by obtain ⟨kv⟩ := k; simp only [null_key, Key.mk.injEq]; exact h)
    simp only [ArrayKey.is_null, IntArray.get, hval, beq_eq_false_iff_ne, ne_eq]
    omega
  · intro hk
    subst hk
    simp only [ArrayKey.is_null, IntArray.get, hval, null_key]
    rfl

/-- C7 witness: searching a concrete column with a null slot for a non-null
key skips the null slot. -/
theorem find_first_null_discipline_witness :
    sample_with_null.find_first ⟨6⟩ 0 2 = some 1 ∧
      (((⟨6⟩ : Key) ≠ null_key → sample_with_null.is_null 1 = false) ∧
        ((⟨6⟩ : Key) = null_key → sample_with_null.is_null 1 = true)) :=
  ⟨by decide, find_first_null_discipline sample_with_null ⟨6⟩ 0 2 1 (by decide)⟩

/-- C8: under the precondition that some slot holds `k`, `nullify k` finds the
first (lowest-index) slot holding `k` — so the internal not-found assertion is
unreachable — and erases exactly that slot, decreasing the size by one and
keeping every other slot's value in order; when no slot holds `k` the
assertion fires, modelled as `none` (a programming error, not a recoverable
condition). -/
theorem nullify_removes_first_match (a : ArrayKey) (k : Key)
    (h : ∃ j, j < a.size ∧ a.get j = k) :
    (∃ i, a.find_first k 0 a.size = some i ∧
        i < a.size ∧
        a.get i = k ∧
        (∀ j, j < i → a.get j ≠ k) ∧
        a.nullify k = some ⟨a.arr.erase_at i⟩ ∧
        (a.arr.erase_at i).data = a.arr.data.take i ++ a.arr.data.drop (i + 1) ∧
        (a.arr.erase_at i).size = a.size - 1) ∧
      (∀ a' : ArrayKey, (∀ j, j < a'.size → a'.get j ≠ k) → a'.nullify k = none) := by
  constructor
  · obtain ⟨j, hj, hjk⟩ := h
    have hstored : a.arr.data.getD j 0 = k.value + 1 := (get_eq_iff a j k).mp hjk
    have hff : a.find_first k 0 a.size =
        IntArray.find_from a.arr.data (k.value + 1) 0 a.size := by
      simp [ArrayKey.find_first, IntArray.find_first, ArrayKey.size, IntArray.size]
    cases hfind : IntArray.find_from a.arr.data (k.value + 1) 0 a.size with
    | none =>
      exact absurd hstored
        (find_from_none_spec a.arr.data (k.value + 1) a.size 0 hfind j (Nat.zero_le j)
          (by omega))
    | some i =>
      obtain ⟨-, hi, hvi, hfirst⟩ := find_from_spec a.arr.data (k.value + 1) a.size 0 i hfind
      have hisize : i < a.size := by omega
      refine ⟨i, by rw [hff, hfind], hisize, (get_eq_iff a i k).mpr hvi, ?_, ?_, ?_, ?_⟩
      · intro j' hj' hj'k
        exact hfirst j' (Nat.zero_le j') hj' ((get_eq_iff a j' k).mp hj'k)
      · rw [ArrayKey.nullify, hff, hfind]
      · simp [IntArray.erase_at, List.eraseIdx_eq_take_drop_succ]
      · have hlen : i < a.arr.data.length := hisize
        simp only [IntArray.erase_at, IntArray.size, ArrayKey.size, List.length_eraseIdx]
        rw [if_pos hlen]
  · intro a' ha'
    rw [ArrayKey.nullify]
    have hff : a'.find_first k 0 a'.size =
        IntArray.find_from a'.arr.data (k.value + 1) 0 a'.size := by
      simp [ArrayKey.find_first, IntArray.find_first, ArrayKey.size, IntArray.size]
    cases hfind : a'.find_first k 0 a'.size with
    | none => rfl
    | some i =>
      rw [hff] at hfind
      obtain ⟨-, hi, hvi, -⟩ := find_from_spec a'.arr.data (k.value + 1) a'.size 0 i hfind
      exact absurd ((get_eq_iff a' i k).mpr hvi) (ha' i (by omega))

/-- C8 witness: nullifying the duplicated key 6 in a concrete column removes
exactly the first slot holding it. -/
theorem nullify_removes_first_match_witness :
    (∃ j, j < sample_dup.size ∧ sample_dup.get j = (⟨6⟩ : Key)) ∧
      ((∃ i, sample_dup.find_first ⟨6⟩ 0 sample_dup.size = some i ∧
          i < sample_dup.size ∧
          sample_dup.get i = ⟨6⟩ ∧
          (∀ j, j < i → sample_dup.get j ≠ ⟨6⟩) ∧
          sample_dup.nullify ⟨6⟩ = some ⟨sample_dup.arr.erase_at i⟩ ∧
          (sample_dup.arr.erase_at i).data =
            sample_dup.arr.data.take i ++ sample_dup.arr.data.drop (i + 1) ∧
          (sample_dup.arr.erase_at i).size = sample_dup.size - 1) ∧
        (∀ a' : ArrayKey, (∀ j, j < a'.size → a'.get j ≠ (⟨6⟩ : Key)) →
          a'.nullify ⟨6⟩ = none)) :=
  ⟨⟨0, by decide, by decide⟩,
    nullify_removes_first_match sample_dup ⟨6⟩ ⟨0, by decide, by decide⟩⟩

/-- C1: plain `remove_object` removes only the named object — every other
object's liveness is unchanged, so in a strong chain A → B → C removing A
leaves B and C valid — and it clears every link into or out of the removed
object; it never cascades, regardless of link strength. -/
theorem remove_object_no_cascade (w : LinkWorld) (a b : Nat) (hba : b ≠ a) :
    is_valid (remove_object w a) b = is_valid w b ∧
      is_valid (remove_object w a) a = false ∧
      ∀ e, e ∈ (remove_object w a).edges → e.src ≠ a ∧ e.dst ≠ a := by
  refine ⟨?_, ?_, ?_⟩
  · simp only [is_valid, remove_object]
    rw [decide_eq_decide]
    simp [List.mem_filter, hba]
  · simp [is_valid, remove_object, List.mem_filter]
  · intro e he
    simp only [remove_object, List.mem_filter, decide_eq_true_eq] at he
    exact he.2

/-- C1 witness: removing the head of the concrete strong chain 0 → 1 → 2 with
plain `remove_object` leaves object 1 (and, by the same theorem, object 2)
alive and clears the links touching 0. -/
theorem remove_object_no_cascade_witness :
    (1 : Nat) ≠ 0 ∧
      (is_valid (remove_object chain_world 0) 1 = is_valid chain_world 1 ∧
        is_valid (remove_object chain_world 0) 0 = false ∧
        ∀ e, e ∈ (remove_object chain_world 0).edges → e.src ≠ 0 ∧ e.dst ≠ 0) :=
  ⟨by decide, remove_object_no_cascade chain_world 0 1 (by decide)⟩

/-- C2: on a chain a → b → c of sole strong links (with an unrelated bystander
d), `remove_object_recursive a` removes exactly {a, b, c}: each strong-link
break that leaves its target without strong incoming links schedules the
target in the cascade state, transitively. -/
theorem remove_object_recursive_chain (a b c d : Nat)
    (hab : a ≠ b) (hac : a ≠ c) (had : a ≠ d) (hbc : b ≠ c) (hbd : b ≠ d) (hcd : c ≠ d) :
    remove_object_recursive ⟨[a, b, c, d], [⟨a, b, true⟩, ⟨b, c, true⟩]⟩ a = ⟨[d], []⟩ := by
  simp [remove_object_recursive, remove_recursive, remove_object, is_valid,
    strong_targets, strongly_referenced, hab, hac, had, hbc, hbd, hcd,
    Ne.symm hab, Ne.symm hac, Ne.symm had, Ne.symm hbc, Ne.symm hbd, Ne.symm hcd]

/-- C2 witness: the cascade evaluated on the concrete chain 0 → 1 → 2 with
bystander 3. -/
theorem remove_object_recursive_chain_witness :
    ((0 : Nat) ≠ 1 ∧ (0 : Nat) ≠ 2 ∧ (0 : Nat) ≠ 3 ∧ (1 : Nat) ≠ 2 ∧ (1 : Nat) ≠ 3 ∧
        (2 : Nat) ≠ 3) ∧
      remove_object_recursive ⟨[0, 1, 2, 3], [⟨0, 1, true⟩, ⟨1, 2, true⟩]⟩ 0 = ⟨[3], []⟩ :=
  ⟨by decide,
    remove_object_recursive_chain 0 1 2 3 (by decide) (by decide) (by decide) (by decide)
      (by decide) (by decide)⟩

/-- C6: breaking a link into `a` while some other object `b` still holds a
strong link to `a` — as in a strong two-cycle a ↔ b hit by a third-party
strong link — removes nothing: cascade removal triggers only when the
target's last strong incoming link is broken (or on an explicit removal). -/
theorem break_link_no_spontaneous_removal (w : LinkWorld) (s a b : Nat)
    (hb : (⟨b, a, true⟩ : Edge) ∈ w.edges) (hbs : b ≠ s) :
    (break_link w s a).live = w.live ∧
      ∀ k, is_valid (break_link w s a) k = is_valid w k := by
  have hmem : (⟨b, a, true⟩ : Edge) ∈ remove_first_edge w.edges s a := by
    refine mem_remove_first_edge w.edges s a _ hb ?_
    intro hpair
    exact hbs hpair.1
  have hsr : strongly_referenced ⟨w.live, remove_first_edge w.edges s a⟩ a = true := by
    simp only [strongly_referenced, List.any_eq_true]
    exact ⟨⟨b, a, true⟩, hmem, by simp⟩
  have hlive : (break_link w s a).live = w.live := by
    rw [break_link]
    cases hf : w.edges.find? (fun e => decide (e.src = s ∧ e.dst = a)) with
    | none => rfl
    | some e => simp [hsr]
  exact ⟨hlive, fun k => by simp [is_valid, hlive]⟩

/-- C6 witness: breaking the third-party strong link 2 → 0 of the concrete
strong cycle 0 ↔ 1 removes neither cycle member. -/
theorem break_link_no_spontaneous_removal_witness :
    ((⟨1, 0, true⟩ : Edge) ∈ cycle_world.edges ∧ (1 : Nat) ≠ 2) ∧
      ((break_link cycle_world 2 0).live = cycle_world.live ∧
        ∀ k, is_valid (break_link cycle_world 2 0) k = is_valid cycle_world k) :=
  ⟨⟨by decide, by decide⟩,
    break_link_no_spontaneous_removal cycle_world 2 0 1 (by decide) (by decide)⟩

/-- The allocator's propagation check never moves the global counter. -/
theorem sp_snd_global (s : VersionState n) (t : Fin n) :
    ((should_propagate_version s t).2).global_version = s.global_version := by
  rw [should_propagate_version]
  by_cases h : s.version t = s.global_version
  · rw [if_pos h]
  · rw [if_neg h]

/-- Recursive (non-global) bumps never move the global counter, through either
`bump_version` or the column loop. -/
theorem bump_global_preserved (g : TableGraph n) :
    ∀ fuel,
      (∀ (t : Fin n) (s : VersionState n),
        (bump_version g fuel t false s).global_version = s.global_version) ∧
      (∀ (cs : List (Fin n)) (s : VersionState n),
        (bump_columns g fuel cs s).global_version = s.global_version) := by
  intro fuel
  induction fuel with
  | zero =>
    constructor
    · intro t s
      simp [bump_version]
    · intro cs
      induction cs with
      | nil => intro s; simp [bump_columns]
      | cons c cs ih =>
        intro s
        have h0 : bump_version g 0 c false s = s := by simp [bump_version]
        rw [bump_columns, h0]
        exact ih s
  | succ fuel ih =>
    have hbv : ∀ (t : Fin n) (s : VersionState n),
        (bump_version g (fuel + 1) t false s).global_version = s.global_version := by
      intro t s
      by_cases h : s.version t = s.global_version
      · simp [bump_version, should_propagate_version, h]
      · cases hp : g.parent t with
        | none => simp [bump_version, should_propagate_version, h, hp, ih.1, ih.2]
        | some p => simp [bump_version, should_propagate_version, h, hp, ih.1, ih.2]
    constructor
    · exact hbv
    · intro cs
      induction cs with
      | nil => intro s; simp [bump_columns]
      | cons c cs ihc =>
        intro s
        rw [bump_columns, ihc, hbv]

/-- Through a recursive (non-global) bump, each table's version either stays
what it was or becomes the current global version. -/
theorem bump_version_values (g : TableGraph n) :
    ∀ fuel,
      (∀ (t : Fin n) (s : VersionState n) (u : Fin n),
        (bump_version g fuel t false s).version u = s.version u ∨
          (bump_version g fuel t false s).version u = s.global_version) ∧
      (∀ (cs : List (Fin n)) (s : VersionState n) (u : Fin n),
        (bump_columns g fuel cs s).version u = s.version u ∨
          (bump_columns g fuel cs s).version u = s.global_version) := by
  intro fuel
  induction fuel with
  | zero =>
    constructor
    · intro t s u
      left
      simp [bump_version]
    · intro cs
      induction cs with
      | nil => intro s u; left; simp [bump_columns]
      | cons c cs ih =>
        intro s u
        have h0 : bump_version g 0 c false s = s := by simp [bump_version]
        rw [bump_columns, h0]
        exact ih s u
  | succ fuel ih =>
    have hupd : ∀ (t u : Fin n) (s : VersionState n),
        Function.update s.version t s.global_version u = s.version u ∨
          Function.update s.version t s.global_version u = s.global_version := by
      intro t u s
      by_cases hu : u = t
      · subst hu; right; exact Function.update_same u _ _
      · left; exact Function.update_noteq hu _ _
    have hbv : ∀ (t : Fin n) (s : VersionState n) (u : Fin n),
        (bump_version g (fuel + 1) t false s).version u = s.version u ∨
          (bump_version g (fuel + 1) t false s).version u = s.global_version := by
      intro t s u
      by_cases h : s.version t = s.global_version
      · left
        simp [bump_version, should_propagate_version, h]
      · have hstep : ∀ m : VersionState n,
            (m.version u = s.version u ∨ m.version u = s.global_version) →
            m.global_version = s.global_version →
            ((bump_columns g fuel (g.linked t) m).version u = s.version u ∨
              (bump_columns g fuel (g.linked t) m).version u = s.global_version) := by
          intro m hm hmg
          rcases ih.2 (g.linked t) m u with h1 | h1
          · rw [h1]; exact hm
          · right; rw [h1, hmg]
        cases hp : g.parent t with
        | none =>
          have hgoal : bump_version g (fuel + 1) t false s =
              bump_columns g fuel (g.linked t)
                ⟨s.global_version, Function.update s.version t s.global_version⟩ := by
            simp [bump_version, should_propagate_version, h, hp]
          rw [hgoal]
          exact hstep _ (hupd t u s) rfl
        | some p =>
          have hgoal : bump_version g (fuel + 1) t false s =
              bump_columns g fuel (g.linked t)
                (bump_version g fuel p false
                  ⟨s.global_version, Function.update s.version t s.global_version⟩) := by
            simp [bump_version, should_propagate_version, h, hp]
          rw [hgoal]
          refine hstep _ ?_ ?_
          · rcases ih.1 p ⟨s.global_version, Function.update s.version t s.global_version⟩ u
              with h1 | h1
            · rw [h1]; exact hupd t u s
            · right; exact h1
          · exact (bump_global_preserved g fuel).1 p _
    constructor
    · exact hbv
    · intro cs
      induction cs with
      | nil => intro s u; left; simp [bump_columns]
      | cons c cs ihc =>
        intro s u
        rw [bump_columns]
        rcases ihc (bump_version g (fuel + 1) c false s) u with h1 | h1
        · rw [h1]
          exact hbv c s u
        · right
          rw [h1]
          exact (bump_global_preserved g (fuel + 1)).1 c s
/-- C5: `bump_version` advances the process-wide global counter exactly once
per top-level mutation — a call with the global flag adds exactly one, while
the recursive propagation calls, which all pass `bump_global = false`, never
move it — and propagation happens only when the allocator reports it
warranted: when the table is already at the current global version, a
non-global bump does nothing at all. -/
theorem bump_version_global_discipline (g : TableGraph n) (fuel : Nat) (t : Fin n)
    (s : VersionState n) :
    (bump_version g (fuel + 1) t true s).global_version = s.global_version + 1 ∧
      (bump_version g fuel t false s).global_version = s.global_version ∧
      (s.version t = s.global_version → bump_version g (fuel + 1) t false s = s) := by
  refine ⟨?_, (bump_global_preserved g fuel).1 t s, ?_⟩
  · by_cases h : s.version t = s.global_version + 1
    · simp [bump_version, should_propagate_version, bump_global_version, h]
    · cases hp : g.parent t with
      | none =>
        have hgoal : bump_version g (fuel + 1) t true s =
            bump_columns g fuel (g.linked t)
              ⟨s.global_version + 1, Function.update s.version t (s.global_version + 1)⟩ := by
          simp [bump_version, should_propagate_version, bump_global_version, h, hp]
        rw [hgoal, (bump_global_preserved g fuel).2]
      | some p =>
        have hgoal : bump_version g (fuel + 1) t true s =
            bump_columns g fuel (g.linked t)
              (bump_version g fuel p false
                ⟨s.global_version + 1, Function.update s.version t (s.global_version + 1)⟩) := by
          simp [bump_version, should_propagate_version, bump_global_version, h, hp]
        rw [hgoal, (bump_global_preserved g fuel).2, (bump_global_preserved g fuel).1]
  · intro h
    simp [bump_version, should_propagate_version, h]

/-- C5 witness: the discipline evaluated on the one-table graph from the zero
state. -/
theorem bump_version_global_discipline_witness :
    zero_state.version table_zero = zero_state.global_version ∧
      ((bump_version single_graph 1 table_zero true zero_state).global_version =
          zero_state.global_version + 1 ∧
        (bump_version single_graph 0 table_zero false zero_state).global_version =
          zero_state.global_version ∧
        (zero_state.version table_zero = zero_state.global_version →
          bump_version single_graph 1 table_zero false zero_state = zero_state)) :=
  ⟨rfl, bump_version_global_discipline single_graph 0 table_zero zero_state⟩

/-- C4: under the invariant that a table has not outrun the allocator's global
counter, any successful mutating call — which ends in `bump_version` with the
global flag — leaves `get_version_counter` strictly greater than before, while
a read-only call leaves it unchanged. -/
theorem version_counter_discipline (g : TableGraph n) (fuel : Nat) (t : Fin n)
    (s : VersionState n) (h : get_version_counter s t ≤ s.global_version) :
    get_version_counter s t < get_version_counter (mutating_call g fuel t s) t ∧
      get_version_counter (read_only_call s) t = get_version_counter s t := by
  refine ⟨?_, rfl⟩
  have hne : ¬s.version t = s.global_version + 1 := by
    simp only [get_version_counter] at h
    omega
  have hupdt : Function.update s.version t (s.global_version + 1) t = s.global_version + 1 :=
    Function.update_same t _ _
  have hmain : (bump_version g (fuel + 1) t true s).version t = s.global_version + 1 := by
    cases hp : g.parent t with
    | none =>
      have hgoal : bump_version g (fuel + 1) t true s =
          bump_columns g fuel (g.linked t)
            ⟨s.global_version + 1, Function.update s.version t (s.global_version + 1)⟩ := by
        simp [bump_version, should_propagate_version, bump_global_version, hne, hp]
      rw [hgoal]
      rcases (bump_version_values g fuel).2 (g.linked t)
          ⟨s.global_version + 1, Function.update s.version t (s.global_version + 1)⟩ t
        with h1 | h1
      · rw [h1]; exact hupdt
      · rw [h1]
    | some p =>
      have hgoal : bump_version g (fuel + 1) t true s =
          bump_columns g fuel (g.linked t)
            (bump_version g fuel p false
              ⟨s.global_version + 1, Function.update s.version t (s.global_version + 1)⟩) := by
        simp [bump_version, should_propagate_version, bump_global_version, hne, hp]
      rw [hgoal]
      have hmv : (bump_version g fuel p false
          ⟨s.global_version + 1, Function.update s.version t (s.global_version + 1)⟩).version t =
          s.global_version + 1 := by
        rcases (bump_version_values g fuel).1 p
            ⟨s.global_version + 1, Function.update s.version t (s.global_version + 1)⟩ t
          with h1 | h1
        · rw [h1]; exact hupdt
        · rw [h1]
      have hmg : (bump_version g fuel p false
          ⟨s.global_version + 1, Function.update s.version t (s.global_version + 1)⟩).global_version =
          s.global_version + 1 :=
        (bump_global_preserved g fuel).1 p _
      rcases (bump_version_values g fuel).2 (g.linked t)
          (bump_version g fuel p false
            ⟨s.global_version + 1, Function.update s.version t (s.global_version + 1)⟩) t
        with h1 | h1
      · rw [h1]; exact hmv
      · rw [h1]; exact hmg
  simp only [mutating_call, get_version_counter, hmain]
  simp only [get_version_counter] at h
  omega

/-- C4 witness: the counter discipline evaluated on the one-table graph from
the zero state. -/
theorem version_counter_discipline_witness :
    get_version_counter zero_state table_zero ≤ zero_state.global_version ∧
      (get_version_counter zero_state table_zero <
          get_version_counter (mutating_call single_graph 0 table_zero zero_state) table_zero ∧
        get_version_counter (read_only_call zero_state) table_zero =
          get_version_counter zero_state table_zero) :=
  ⟨by decide, version_counter_discipline single_graph 0 table_zero zero_state (by decide)⟩

end Realm
